import Mathlib

/-!
Verification of the 9-grid poster composer repository.

The repository ships a browser script (src/main.js) that composes an uploaded
image onto a background, lets the user drag/zoom it, and slices the result into
a 3 x 3 grid of PNG pieces.  The specification additionally describes an
in-memory ZIP archive assembler (checksum engine, entry record builder, archive
assembler, byte concatenator) used to package the pieces; that code is not part
of the sources available here, so it is modelled from the specification text
(section 4 of spec.md) and marked as such below.  The image-analysis and
zoom-about-center routines (getOpaqueBoundingBox, updateScale) are embedded
directly from src/main.js.

Bytes are modelled as natural numbers (every encoder emits values reduced
mod 256), buffers as lists of naturals, and JavaScript's 32-bit unsigned
arithmetic as explicit `% 2 ^ 32` operations on naturals.
-/

set_option maxRecDepth 100000

namespace Zip

/-- Modelled from the spec: one archival input, section 3 of spec.md.  The
`name` field holds the UTF-8 bytes of the entry's file name (the spec's
Entry Record Builder consumes the encoded name bytes), `data` the raw file
bytes. -/
structure Entry where
  name : List Nat
  data : List Nat
deriving DecidableEq

/-- Modelled from the spec: one step of the CRC-32 table construction —
test the low bit and conditionally XOR with the polynomial `0xEDB88320`,
else just shift right by one (section 4.1). -/
def crcStep (c : Nat) : Nat :=
  if c % 2 = 1 then 0xEDB88320 ^^^ (c / 2) else c / 2

/-- Modelled from the spec: entry `i` of the 256-entry CRC-32 lookup table —
`i` reflected through the polynomial across 8 iterations (section 4.1). -/
def crcTableEntry (i : Nat) : Nat :=
  crcStep (crcStep (crcStep (crcStep (crcStep (crcStep (crcStep (crcStep i)))))))

/-- Modelled from the spec: the CRC-32 accumulator loop — for each byte, XOR
the accumulator's low byte with the input byte, look up the table at that
index, and XOR with the accumulator shifted right 8 bits (section 4.1). -/
def crc32Aux (acc : Nat) (bytes : List Nat) : Nat :=
  bytes.foldl (fun c b => crcTableEntry ((c ^^^ b) % 256) ^^^ (c / 256)) acc

/-- Modelled from the spec: `crc32(data)` — accumulator initialised to
`0xFFFFFFFF`, folded over the bytes, finally inverted (section 4.1). -/
def crc32 (bytes : List Nat) : Nat :=
  crc32Aux 0xFFFFFFFF bytes ^^^ 0xFFFFFFFF

/-- Little-endian encoding of a 16-bit field as two bytes. -/
def le16 (n : Nat) : List Nat :=
  [n % 256, n / 256 % 256]

/-- Little-endian encoding of a 32-bit field as four bytes. -/
def le32 (n : Nat) : List Nat :=
  [n % 256, n / 256 % 256, n / 65536 % 256, n / 16777216 % 256]

/-- Modelled from the spec: the local file header for one entry — fixed
30-byte prefix (signature `0x04034b50`, version-needed 20, flags 0, method 0,
time 0, date 0, CRC-32, compressed size, uncompressed size, name length,
extra-field length 0) followed by the name bytes (section 4.2). -/
def localHeader (e : Entry) : List Nat :=
  le32 0x04034B50 ++ le16 20 ++ le16 0 ++ le16 0 ++ le16 0 ++ le16 0 ++
    le32 (crc32 e.data) ++ le32 e.data.length ++ le32 e.data.length ++
    le16 e.name.length ++ le16 0 ++ e.name

/-- Modelled from the spec: the central-directory record for one entry —
fixed 46-byte prefix (signature `0x02014b50`, version-made-by 20,
version-needed 20, flags 0, method 0, time 0, date 0, CRC-32, compressed and
uncompressed sizes, name length, extra/comment lengths 0, disk number 0,
internal and external attributes 0, local-header offset) followed by the name
bytes (section 4.2). -/
def centralRecord (e : Entry) (offset : Nat) : List Nat :=
  le32 0x02014B50 ++ le16 20 ++ le16 20 ++ le16 0 ++ le16 0 ++ le16 0 ++
    le16 0 ++ le32 (crc32 e.data) ++ le32 e.data.length ++ le32 e.data.length ++
    le16 e.name.length ++ le16 0 ++ le16 0 ++ le16 0 ++ le16 0 ++ le32 0 ++
    le32 offset ++ e.name

/-- Modelled from the spec: the 22-byte end-of-central-directory record —
signature `0x06054b50`, disk numbers 0, entry count (twice), central-directory
size, central-directory offset, comment length 0 (section 4.3, phase 3). -/
def endRecord (count cdSize cdOffset : Nat) : List Nat :=
  le32 0x06054B50 ++ le16 0 ++ le16 0 ++ le16 count ++ le16 count ++
    le32 cdSize ++ le32 cdOffset ++ le16 0

/-- Modelled from the spec: the local phase — for each entry in order, append
its local header then its data bytes (section 4.3, phase 1). -/
def buildLocals : List Entry → List Nat
  | [] => []
  | e :: es => localHeader e ++ e.data ++ buildLocals es

/-- The serialized size one entry contributes to the local phase. -/
def entrySize (e : Entry) : Nat :=
  30 + e.name.length + e.data.length

/-- Modelled from the spec: the central phase — for each entry in the same
order, append its central-directory record carrying the local offset recorded
during the local phase; `base` is the offset of the first listed entry's local
header (section 4.3, phase 2). -/
def buildCentrals : Nat → List Entry → List Nat
  | _, [] => []
  | base, e :: es => centralRecord e base ++ buildCentrals (base + entrySize e) es

/-- Modelled from the spec: the archive assembler — local-phase buffer, then
central-directory buffer, then the end record summarising entry count and
directory size/location (section 4.3). -/
def buildZip (entries : List Entry) : List Nat :=
  buildLocals entries ++ buildCentrals 0 entries ++
    endRecord entries.length (buildCentrals 0 entries).length (buildLocals entries).length

/-- Modelled from the spec: the builder's documented precondition — every
name must fit the 16-bit name-length field; the checked builder refuses an
entry list exactly when some name exceeds 65535 bytes (sections 4.2, 7, 8). -/
def buildZipChecked (entries : List Entry) : Option (List Nat) :=
  if entries.all (fun e => e.name.length ≤ 65535) then some (buildZip entries) else none

/-- One byte of an archive as a reader sees it (out of range reads 0). -/
def readByte (arc : List Nat) (pos : Nat) : Nat :=
  arc.getD pos 0

/-- A reader's little-endian 16-bit field decode. -/
def readLe16 (arc : List Nat) (pos : Nat) : Nat :=
  readByte arc pos + 256 * readByte arc (pos + 1)

/-- A reader's little-endian 32-bit field decode. -/
def readLe32 (arc : List Nat) (pos : Nat) : Nat :=
  readByte arc pos + 256 * readByte arc (pos + 1) +
    65536 * readByte arc (pos + 2) + 16777216 * readByte arc (pos + 3)

/-- A contiguous slice of the archive. -/
def readSlice (arc : List Nat) (pos len : Nat) : List Nat :=
  (arc.drop pos).take len

/-- Modelled from the spec: one step of a standard ZIP-compliant reader —
parse the central-directory record at `cdPos`, follow its stored offset to
the local header, check both signatures and the CRC-32, and return the entry
together with the position of the next central record (sections 4.2, 6, 8). -/
def readEntry (arc : List Nat) (cdPos : Nat) : Option (Entry × Nat) :=
  if readLe32 arc cdPos ≠ 0x02014B50 then none else
  let crc := readLe32 arc (cdPos + 16)
  let size := readLe32 arc (cdPos + 20)
  let nameLen := readLe16 arc (cdPos + 28)
  let offset := readLe32 arc (cdPos + 42)
  let name := readSlice arc (cdPos + 46) nameLen
  if readLe32 arc offset ≠ 0x04034B50 then none else
  let lNameLen := readLe16 arc (offset + 26)
  let data := readSlice arc (offset + 30 + lNameLen) size
  if crc32 data ≠ crc then none else
  some (⟨name, data⟩, cdPos + 46 + nameLen)

/-- Modelled from the spec: read `count` entries by walking the central
directory from `cdPos`. -/
def readEntries (arc : List Nat) : Nat → Nat → Option (List Entry)
  | _, 0 => some []
  | cdPos, count + 1 =>
    match readEntry arc cdPos with
    | none => none
    | some (e, next) =>
      match readEntries arc next count with
      | none => none
      | some es => some (e :: es)

/-- Modelled from the spec: a standard ZIP-compliant extraction — locate the
end-of-central-directory record at the end of the buffer, read the entry
count and central-directory offset from it, then walk the central directory
(sections 4.3, 6, 8). -/
def readArchive (arc : List Nat) : Option (List Entry) :=
  if arc.length < 22 then none else
  let ePos := arc.length - 22
  if readLe32 arc ePos ≠ 0x06054B50 then none else
  readEntries arc (readLe32 arc (ePos + 16)) (readLe16 arc (ePos + 10))

/-- The byte offset at which entry `i`'s local header is placed: the length of
the local phase output of the preceding entries. -/
def localOffsetAt (entries : List Entry) (i : Nat) : Nat :=
  (buildLocals (entries.take i)).length

/-- The byte position at which entry `i`'s central-directory record is placed
in the final archive. -/
def centralPosAt (entries : List Entry) (i : Nat) : Nat :=
  (buildLocals entries).length + (buildCentrals 0 (entries.take i)).length

end Zip

namespace Grid

/-- An image as the bounding-box scanner sees it: its dimensions and the
flattened RGBA pixel array, four consecutive values per pixel, as returned by
getImageData in src/main.js. -/
structure Image where
  width : Nat
  height : Nat
  data : List Nat

/-- The alpha component of pixel `(x, y)`: `data[(y * width + x) * 4 + 3]`
(src/main.js lines 34-35).  A read past the end of the array yields 0 here;
in the script it yields `undefined`, and both fail the strict `> threshold`
comparison. -/
def alphaAt (img : Image) (x y : Nat) : Nat :=
  img.data.getD ((y * img.width + x) * 4 + 3) 0

/-- The scanner's running bounds: `minX`/`minY` start at the image dimensions
and `maxX`/`maxY` at `-1` (src/main.js lines 28-31), so the max trackers live
in the integers. -/
structure ScanAcc where
  minX : Nat
  minY : Nat
  maxX : Int
  maxY : Int
deriving DecidableEq

/-- The loop body of `getOpaqueBoundingBox` (src/main.js lines 35-40): when a
pixel's alpha channel strictly exceeds the threshold, each of the four
running bounds is conditionally replaced. -/
def scanPixel (img : Image) (thr : Nat) (acc : ScanAcc) (x y : Nat) : ScanAcc :=
  if alphaAt img x y > thr then
    { minX := if x < acc.minX then x else acc.minX
      minY := if y < acc.minY then y else acc.minY
      maxX := if (x : Int) > acc.maxX then (x : Int) else acc.maxX
      maxY := if (y : Int) > acc.maxY then (y : Int) else acc.maxY }
  else acc

/-- The double pixel loop of `getOpaqueBoundingBox` (src/main.js lines
32-42): rows outer, columns inner, starting from the initial bounds. -/
def scanImage (img : Image) (thr : Nat) : ScanAcc :=
  (List.range img.height).foldl
    (fun acc y =>
      (List.range img.width).foldl (fun acc2 x => scanPixel img thr acc2 x y) acc)
    ⟨img.width, img.height, -1, -1⟩

/-- A rectangle as returned by `getOpaqueBoundingBox`.  Integer coordinates
model the JavaScript numbers produced there (pixel indices and the `-1`
sentinel arithmetic). -/
structure Rect where
  x : Int
  y : Int
  width : Int
  height : Int
deriving DecidableEq

/-- `getOpaqueBoundingBox` (src/main.js lines 21-52): scan every pixel for an
alpha value strictly above the threshold (default 8); if none was recorded
(`maxX === -1 || maxY === -1`) fall back to the full-image rectangle, else
return `(minX, minY, maxX - minX + 1, maxY - minY + 1)`. -/
def getOpaqueBoundingBox (img : Image) (thr : Nat := 8) : Rect :=
  let acc := scanImage img thr
  if acc.maxX = -1 ∨ acc.maxY = -1 then
    ⟨0, 0, (img.width : Int), (img.height : Int)⟩
  else
    ⟨(acc.minX : Int), (acc.minY : Int),
      acc.maxX - (acc.minX : Int) + 1, acc.maxY - (acc.minY : Int) + 1⟩

/-- Pixel `(x, y)` counts as opaque when its alpha channel strictly exceeds
the threshold. -/
def opaquePt (img : Image) (thr : Nat) (x y : Nat) : Prop :=
  thr < alphaAt img x y

instance : ∀ (img : Image) (thr x y : Nat), Decidable (opaquePt img thr x y) :=
  fun img thr x y => Nat.decLt thr (alphaAt img x y)

/-- All pixel coordinates of the image, in the scanner's row-major order. -/
def scanPoints (img : Image) : List (Nat × Nat) :=
  (List.range img.height).flatMap (fun y => (List.range img.width).map (fun x => (x, y)))

/-- The unconditional bound update applied by the scanner to each opaque
pixel. -/
def rawStep (acc : ScanAcc) (p : Nat × Nat) : ScanAcc :=
  { minX := if p.1 < acc.minX then p.1 else acc.minX
    minY := if p.2 < acc.minY then p.2 else acc.minY
    maxX := if (p.1 : Int) > acc.maxX then (p.1 : Int) else acc.maxX
    maxY := if (p.2 : Int) > acc.maxY then (p.2 : Int) else acc.maxY }

/-- The opaque pixels of the image, in scan order. -/
def opaqueList (img : Image) (thr : Nat) : List (Nat × Nat) :=
  (scanPoints img).filter (fun p => decide (opaquePt img thr p.1 p.2))

/-- The set of column indices holding an opaque pixel. -/
def opaqueCols (img : Image) (thr : Nat) : Set Nat :=
  {x : Nat | x < img.width ∧ ∃ y, y < img.height ∧ opaquePt img thr x y}

/-- The set of row indices holding an opaque pixel. -/
def opaqueRows (img : Image) (thr : Nat) : Set Nat :=
  {y : Nat | y < img.height ∧ ∃ x, x < img.width ∧ opaquePt img thr x y}

end Grid

namespace Compose

/-- A bounding-box rectangle with rational coordinates, as cached in
`state.bbox` by the upload handler (src/main.js). -/
structure QRect where
  x : ℚ
  y : ℚ
  width : ℚ
  height : ℚ

/-- The slice of the script's `state` object that `updateScale` reads and
writes (src/main.js lines 172-179): the cached bounding box, the base scale,
the user scale ratio, and the image position on the canvas.  JavaScript float
arithmetic is modelled exactly over the rationals, as the claim prescribes. -/
structure ComposeState where
  bbox : QRect
  baseScale : ℚ
  scaleRatio : ℚ
  imagePos : ℚ × ℚ

/-- `clamp` (src/main.js line 190): `Math.min(max, Math.max(min, value))`. -/
def clamp (value lo hi : ℚ) : ℚ :=
  min hi (max lo value)

/-- `getScale` (src/main.js line 201): the effective scale is
`baseScale * scaleRatio`. -/
def getScale (s : ComposeState) : ℚ :=
  s.baseScale * s.scaleRatio

/-- `getBoundingCenter` (src/main.js lines 257-260): the canvas-space centre
of the bounding box at the given scale. -/
def getBoundingCenter (s : ComposeState) (scale : ℚ) : ℚ × ℚ :=
  (s.imagePos.1 + (s.bbox.x + s.bbox.width / 2) * scale,
   s.imagePos.2 + (s.bbox.y + s.bbox.height / 2) * scale)

/-- `updateScale` (src/main.js lines 281-298) in the loaded state (the early
return guarding `!state.inputImg || !state.bbox` is outside this model, as
the claim quantifies over calls made while an image and box are loaded):
clamp the requested ratio into `[lo, hi]` (the slider's min/max), remember
the bounding-box centre at the old scale, install the new ratio, and
re-derive `imagePos` so that centre point is preserved. -/
def updateScale (s : ComposeState) (nextRatio lo hi : ℚ) : ComposeState :=
  let clampedRatio := clamp nextRatio lo hi
  let oldScale := getScale s
  let center := getBoundingCenter s oldScale
  let s1 : ComposeState := { s with scaleRatio := clampedRatio }
  let newScale := getScale s1
  { s1 with
    imagePos := (center.1 - (s1.bbox.x + s1.bbox.width / 2) * newScale,
                 center.2 - (s1.bbox.y + s1.bbox.height / 2) * newScale) }

end Compose

namespace Zip

/-! ### Size and bound lemmas -/

theorem le16_length (n : Nat) : (le16 n).length = 2 := rfl

theorem le32_length (n : Nat) : (le32 n).length = 4 := rfl

theorem localHeader_length (e : Entry) : (localHeader e).length = 30 + e.name.length := by
  simp [localHeader, le16, le32]
  omega

theorem centralRecord_length (e : Entry) (o : Nat) :
    (centralRecord e o).length = 46 + e.name.length := by
  simp [centralRecord, le16, le32]
  omega

theorem endRecord_length (c s o : Nat) : (endRecord c s o).length = 22 := by
  simp [endRecord, le16, le32]

theorem crcStep_lt {c : Nat} (h : c < 4294967296) : crcStep c < 4294967296 := by
  unfold crcStep
  split
  · exact Nat.xor_lt_two_pow (n := 32) (by norm_num) (by omega)
  · omega

theorem crcTableEntry_lt {i : Nat} (h : i < 4294967296) : crcTableEntry i < 4294967296 :=
  crcStep_lt (crcStep_lt (crcStep_lt (crcStep_lt
    (crcStep_lt (crcStep_lt (crcStep_lt (crcStep_lt h)))))))

theorem crc32Aux_lt (bytes : List Nat) : ∀ acc : Nat, acc < 4294967296 →
    crc32Aux acc bytes < 4294967296 := by
  induction bytes with
  | nil => intro acc h; exact h
  | cons b bs ih =>
    intro acc h
    have h1 : (acc ^^^ b) % 256 < 4294967296 :=
      Nat.lt_of_lt_of_le (Nat.mod_lt _ (by norm_num)) (by norm_num)
    have h2 : crcTableEntry ((acc ^^^ b) % 256) ^^^ acc / 256 < 4294967296 :=
      Nat.xor_lt_two_pow (n := 32) (crcTableEntry_lt h1) (by omega)
    exact ih _ h2

theorem crc32_lt (bytes : List Nat) : crc32 bytes < 4294967296 :=
  Nat.xor_lt_two_pow (n := 32) (crc32Aux_lt bytes _ (by norm_num)) (by norm_num)

/-! ### Decode lemmas: reading back what the encoders wrote -/

theorem readByte_add (arc : List Nat) (pos k : Nat) :
    readByte arc (pos + k) = readByte (arc.drop pos) k := by
  simp [readByte, List.getD_eq_getElem?_getD, List.getElem?_drop]

theorem drop_add (arc : List Nat) (pos k : Nat) :
    arc.drop (pos + k) = (arc.drop pos).drop k :=
  (List.drop_drop k pos arc).symm

theorem readLe16_of_drop {arc rest : List Nat} {pos v : Nat}
    (h : arc.drop pos = le16 v ++ rest) : readLe16 arc pos = v % 65536 := by
  have h0 : readByte arc (pos + 0) = v % 256 := by
    rw [readByte_add, h]; rfl
  have h1 : readByte arc (pos + 1) = v / 256 % 256 := by
    rw [readByte_add, h]; rfl
  rw [Nat.add_zero] at h0
  unfold readLe16
  rw [h0, h1]
  omega

theorem readLe32_of_drop {arc rest : List Nat} {pos v : Nat}
    (h : arc.drop pos = le32 v ++ rest) : readLe32 arc pos = v % 4294967296 := by
  have h0 : readByte arc (pos + 0) = v % 256 := by
    rw [readByte_add, h]; rfl
  have h1 : readByte arc (pos + 1) = v / 256 % 256 := by
    rw [readByte_add, h]; rfl
  have h2 : readByte arc (pos + 2) = v / 65536 % 256 := by
    rw [readByte_add, h]; rfl
  have h3 : readByte arc (pos + 3) = v / 16777216 % 256 := by
    rw [readByte_add, h]; rfl
  rw [Nat.add_zero] at h0
  unfold readLe32
  rw [h0, h1, h2, h3]
  omega

theorem readSlice_of_drop {arc rest l : List Nat} {pos : Nat}
    (h : arc.drop pos = l ++ rest) : readSlice arc pos l.length = l := by
  unfold readSlice
  rw [h]
  exact List.take_left l rest

/-! ### Field access into a serialized central-directory record -/

theorem central_sig {arc t : List Nat} {pos base : Nat} {e : Entry}
    (h : arc.drop pos = centralRecord e base ++ t) :
    readLe32 arc pos = 0x02014B50 := by
  have hd : arc.drop (pos + 0) = le32 0x02014B50 ++
      ((le16 20 ++ le16 20 ++ le16 0 ++ le16 0 ++ le16 0 ++ le16 0 ++
        le32 (crc32 e.data) ++ le32 e.data.length ++ le32 e.data.length ++
        le16 e.name.length ++ le16 0 ++ le16 0 ++ le16 0 ++ le16 0 ++ le32 0 ++
        le32 base ++ e.name) ++ t) := by
    rw [drop_add, h]; rfl
  rw [Nat.add_zero] at hd
  rw [readLe32_of_drop hd]

theorem central_crc {arc t : List Nat} {pos base : Nat} {e : Entry}
    (h : arc.drop pos = centralRecord e base ++ t) :
    readLe32 arc (pos + 16) = crc32 e.data := by
  have hd : arc.drop (pos + 16) = le32 (crc32 e.data) ++
      ((le32 e.data.length ++ le32 e.data.length ++ le16 e.name.length ++ le16 0 ++
        le16 0 ++ le16 0 ++ le16 0 ++ le32 0 ++ le32 base ++ e.name) ++ t) := by
    rw [drop_add, h]; rfl
  rw [readLe32_of_drop hd, Nat.mod_eq_of_lt (crc32_lt e.data)]

theorem central_size {arc t : List Nat} {pos base : Nat} {e : Entry}
    (h : arc.drop pos = centralRecord e base ++ t) :
    readLe32 arc (pos + 20) = e.data.length % 4294967296 := by
  have hd : arc.drop (pos + 20) = le32 e.data.length ++
      ((le32 e.data.length ++ le16 e.name.length ++ le16 0 ++
        le16 0 ++ le16 0 ++ le16 0 ++ le32 0 ++ le32 base ++ e.name) ++ t) := by
    rw [drop_add, h]; rfl
  exact readLe32_of_drop hd

theorem central_nameLen {arc t : List Nat} {pos base : Nat} {e : Entry}
    (h : arc.drop pos = centralRecord e base ++ t) :
    readLe16 arc (pos + 28) = e.name.length % 65536 := by
  have hd : arc.drop (pos + 28) = le16 e.name.length ++
      ((le16 0 ++ le16 0 ++ le16 0 ++ le16 0 ++ le32 0 ++ le32 base ++ e.name) ++ t) := by
    rw [drop_add, h]; rfl
  exact readLe16_of_drop hd

theorem central_offset {arc t : List Nat} {pos base : Nat} {e : Entry}
    (h : arc.drop pos = centralRecord e base ++ t) :
    readLe32 arc (pos + 42) = base % 4294967296 := by
  have hd : arc.drop (pos + 42) = le32 base ++ (e.name ++ t) := by
    rw [drop_add, h]; rfl
  exact readLe32_of_drop hd

theorem central_name_drop {arc t : List Nat} {pos base : Nat} {e : Entry}
    (h : arc.drop pos = centralRecord e base ++ t) :
    arc.drop (pos + 46) = e.name ++ t := by
  rw [drop_add, h]; rfl

/-! ### Field access into a serialized local header -/

theorem local_sig {arc t : List Nat} {pos : Nat} {e : Entry}
    (h : arc.drop pos = localHeader e ++ t) :
    readLe32 arc pos = 0x04034B50 := by
  have hd : arc.drop (pos + 0) = le32 0x04034B50 ++
      ((le16 20 ++ le16 0 ++ le16 0 ++ le16 0 ++ le16 0 ++
        le32 (crc32 e.data) ++ le32 e.data.length ++ le32 e.data.length ++
        le16 e.name.length ++ le16 0 ++ e.name) ++ t) := by
    rw [drop_add, h]; rfl
  rw [Nat.add_zero] at hd
  rw [readLe32_of_drop hd]

theorem local_nameLen {arc t : List Nat} {pos : Nat} {e : Entry}
    (h : arc.drop pos = localHeader e ++ t) :
    readLe16 arc (pos + 26) = e.name.length % 65536 := by
  have hd : arc.drop (pos + 26) = le16 e.name.length ++ ((le16 0 ++ e.name) ++ t) := by
    rw [drop_add, h]; rfl
  exact readLe16_of_drop hd

theorem local_name_drop {arc t : List Nat} {pos : Nat} {e : Entry}
    (h : arc.drop pos = localHeader e ++ t) :
    arc.drop (pos + 30) = e.name ++ t := by
  rw [drop_add, h]; rfl

theorem local_data_drop {arc t : List Nat} {pos : Nat} {e : Entry}
    (h : arc.drop pos = localHeader e ++ t) :
    arc.drop (pos + 30 + e.name.length) = t := by
  rw [drop_add arc (pos + 30) e.name.length, local_name_drop h]
  exact List.drop_left e.name t

/-! ### Field access into a serialized end-of-central-directory record -/

theorem end_sig {arc t : List Nat} {pos c s o : Nat}
    (h : arc.drop pos = endRecord c s o ++ t) :
    readLe32 arc pos = 0x06054B50 := by
  have hd : arc.drop (pos + 0) = le32 0x06054B50 ++
      ((le16 0 ++ le16 0 ++ le16 c ++ le16 c ++ le32 s ++ le32 o ++ le16 0) ++ t) := by
    rw [drop_add, h]; rfl
  rw [Nat.add_zero] at hd
  rw [readLe32_of_drop hd]

theorem end_count_disk {arc t : List Nat} {pos c s o : Nat}
    (h : arc.drop pos = endRecord c s o ++ t) :
    readLe16 arc (pos + 8) = c % 65536 := by
  have hd : arc.drop (pos + 8) = le16 c ++
      ((le16 c ++ le32 s ++ le32 o ++ le16 0) ++ t) := by
    rw [drop_add, h]; rfl
  exact readLe16_of_drop hd

theorem end_count {arc t : List Nat} {pos c s o : Nat}
    (h : arc.drop pos = endRecord c s o ++ t) :
    readLe16 arc (pos + 10) = c % 65536 := by
  have hd : arc.drop (pos + 10) = le16 c ++ ((le32 s ++ le32 o ++ le16 0) ++ t) := by
    rw [drop_add, h]; rfl
  exact readLe16_of_drop hd

theorem end_cdSize {arc t : List Nat} {pos c s o : Nat}
    (h : arc.drop pos = endRecord c s o ++ t) :
    readLe32 arc (pos + 12) = s % 4294967296 := by
  have hd : arc.drop (pos + 12) = le32 s ++ ((le32 o ++ le16 0) ++ t) := by
    rw [drop_add, h]; rfl
  exact readLe32_of_drop hd

theorem end_cdOffset {arc t : List Nat} {pos c s o : Nat}
    (h : arc.drop pos = endRecord c s o ++ t) :
    readLe32 arc (pos + 16) = o % 4294967296 := by
  have hd : arc.drop (pos + 16) = le32 o ++ ((le16 0) ++ t) := by
    rw [drop_add, h]; rfl
  exact readLe32_of_drop hd

/-! ### Reader correctness over a built archive -/

theorem readEntry_ok {arc t1 t2 : List Nat} {base cdPos : Nat} {e : Entry}
    (hlt : arc.length < 4294967296)
    (hname : e.name.length < 65536)
    (h1 : arc.drop base = localHeader e ++ (e.data ++ t1))
    (h2 : arc.drop cdPos = centralRecord e base ++ t2) :
    readEntry arc cdPos = some (e, cdPos + 46 + e.name.length) := by
  obtain ⟨n, d⟩ := e
  simp only at hname h1 h2 ⊢
  have hblen : (arc.drop base).length = (localHeader ⟨n, d⟩ ++ (d ++ t1)).length := by
    rw [h1]
  rw [List.length_drop, List.length_append, List.length_append,
    localHeader_length] at hblen
  have hbase32 : base < 4294967296 := by simp at hblen; omega
  have hdl32 : d.length < 4294967296 := by simp at hblen; omega
  have csig := central_sig h2
  have ccrc := central_crc h2
  have csize := central_size h2
  have cname := central_nameLen h2
  have coff := central_offset h2
  simp only at csig ccrc csize cname coff
  rw [Nat.mod_eq_of_lt hname] at cname
  rw [Nat.mod_eq_of_lt hbase32] at coff
  rw [Nat.mod_eq_of_lt hdl32] at csize
  have lsig := local_sig h1
  have lname := local_nameLen h1
  simp only at lsig lname
  rw [Nat.mod_eq_of_lt hname] at lname
  have hdatad : arc.drop (base + 30 + n.length) = d ++ t1 := local_data_drop h1
  have hdata : readSlice arc (base + 30 + n.length) d.length = d :=
    readSlice_of_drop hdatad
  have hnamed : arc.drop (cdPos + 46) = n ++ t2 := central_name_drop h2
  have hnm : readSlice arc (cdPos + 46) n.length = n := readSlice_of_drop hnamed
  unfold readEntry
  simp [csig, ccrc, csize, cname, coff, lsig, lname, hdata, hnm]

theorem readEntries_ok {arc : List Nat} (hlt : arc.length < 4294967296) :
    ∀ (es : List Entry) (base cdPos : Nat) (t1 t2 : List Nat),
    arc.drop base = buildLocals es ++ t1 →
    arc.drop cdPos = buildCentrals base es ++ t2 →
    (∀ e ∈ es, e.name.length < 65536) →
    readEntries arc cdPos es.length = some es := by
  intro es
  induction es with
  | nil => intro base cdPos t1 t2 _ _ _; rfl
  | cons e rest ih =>
    intro base cdPos t1 t2 h1 h2 hnames
    have h1' : arc.drop base = localHeader e ++ (e.data ++ (buildLocals rest ++ t1)) := by
      rw [h1]; simp [buildLocals, List.append_assoc]
    have h2' : arc.drop cdPos =
        centralRecord e base ++ (buildCentrals (base + entrySize e) rest ++ t2) := by
      rw [h2]; simp [buildCentrals, List.append_assoc]
    have hname : e.name.length < 65536 := hnames e (List.mem_cons_self e rest)
    have hstep := readEntry_ok hlt hname h1' h2'
    have hnext1 : arc.drop (base + entrySize e) = buildLocals rest ++ t1 := by
      have hsz : base + entrySize e = base + 30 + e.name.length + e.data.length := by
        unfold entrySize; omega
      rw [hsz, drop_add arc (base + 30 + e.name.length) e.data.length,
        local_data_drop h1']
      exact List.drop_left e.data _
    have hnext2 : arc.drop (cdPos + 46 + e.name.length) =
        buildCentrals (base + entrySize e) rest ++ t2 := by
      rw [drop_add arc (cdPos + 46) e.name.length, central_name_drop h2']
      exact List.drop_left e.name _
    have hrest := ih (base + entrySize e) (cdPos + 46 + e.name.length) t1 t2
      hnext1 hnext2 (fun x hx => hnames x (List.mem_cons_of_mem e hx))
    show readEntries arc cdPos (rest.length + 1) = some (e :: rest)
    unfold readEntries
    rw [hstep]
    simp [hrest]

/-- The length of the assembled archive decomposed into its three phases. -/
theorem buildZip_length (entries : List Entry) :
    (buildZip entries).length =
      (buildLocals entries).length + (buildCentrals 0 entries).length + 22 := by
  simp [buildZip, endRecord_length, Nat.add_assoc]

/-- Helper shared by the round-trip results: a standard-compliant read of a
built archive recovers the entries, provided every name fits its 16-bit
field, the entry count fits its 16-bit field, and the whole archive fits the
32-bit offsets. -/
theorem readArchive_buildZip (entries : List Entry)
    (hnames : ∀ e ∈ entries, e.name.length < 65536)
    (hcount : entries.length < 65536)
    (hlen : (buildZip entries).length < 4294967296) :
    readArchive (buildZip entries) = some entries := by
  have hsplit : buildZip entries =
      (buildLocals entries ++ buildCentrals 0 entries) ++
        endRecord entries.length (buildCentrals 0 entries).length
          (buildLocals entries).length := by
    simp [buildZip, List.append_assoc]
  have hlen22 := buildZip_length entries
  have hePos : (buildZip entries).length - 22 =
      (buildLocals entries).length + (buildCentrals 0 entries).length := by omega
  have hdropE : (buildZip entries).drop
      ((buildLocals entries).length + (buildCentrals 0 entries).length) =
      endRecord entries.length (buildCentrals 0 entries).length
        (buildLocals entries).length ++ [] := by
    rw [hsplit, List.append_nil]
    exact List.drop_left' (by simp)
  have hsig := end_sig hdropE
  have hcnt := end_count hdropE
  have hoff := end_cdOffset hdropE
  rw [Nat.mod_eq_of_lt hcount] at hcnt
  rw [Nat.mod_eq_of_lt (by omega : (buildLocals entries).length < 4294967296)] at hoff
  have hentries : readEntries (buildZip entries) (buildLocals entries).length
      entries.length = some entries := by
    refine readEntries_ok hlen entries 0 (buildLocals entries).length
      (buildCentrals 0 entries ++ endRecord entries.length
        (buildCentrals 0 entries).length (buildLocals entries).length)
      (endRecord entries.length (buildCentrals 0 entries).length
        (buildLocals entries).length) ?_ ?_ hnames
    · simp [buildZip, List.append_assoc]
    · rw [hsplit]
      have : buildLocals entries ++ buildCentrals 0 entries ++
          endRecord entries.length (buildCentrals 0 entries).length
            (buildLocals entries).length =
          buildLocals entries ++ (buildCentrals 0 entries ++
            endRecord entries.length (buildCentrals 0 entries).length
              (buildLocals entries).length) := by
        simp [List.append_assoc]
      rw [this]
      exact List.drop_left' rfl
  unfold readArchive
  rw [if_neg (by omega), hePos]
  simp [hsig, hcnt, hoff, hentries]

/-! ### Positions of the per-entry records inside the archive -/

theorem buildLocals_append (l1 l2 : List Entry) :
    buildLocals (l1 ++ l2) = buildLocals l1 ++ buildLocals l2 := by
  induction l1 with
  | nil => simp [buildLocals]
  | cons e es ih => simp [buildLocals, ih, List.append_assoc]

theorem buildCentrals_append (b : Nat) (l1 l2 : List Entry) :
    buildCentrals b (l1 ++ l2) =
      buildCentrals b l1 ++ buildCentrals (b + (buildLocals l1).length) l2 := by
  induction l1 generalizing b with
  | nil => simp [buildCentrals, buildLocals]
  | cons e es ih =>
    have hb : b + entrySize e + (buildLocals es).length =
        b + (buildLocals (e :: es)).length := by
      simp [buildLocals, entrySize, localHeader_length]
      omega
    show centralRecord e b ++ buildCentrals (b + entrySize e) (es ++ l2) =
      (centralRecord e b ++ buildCentrals (b + entrySize e) es) ++
        buildCentrals (b + (buildLocals (e :: es)).length) l2
    rw [ih, ← hb, List.append_assoc]

theorem drop_locals_split (l1 l2 : List Entry) (t : List Nat) :
    (buildLocals (l1 ++ l2) ++ t).drop (buildLocals l1).length =
      buildLocals l2 ++ t := by
  rw [buildLocals_append, List.append_assoc]
  exact List.drop_left' rfl

theorem drop_centrals_split (l1 l2 : List Entry) (b : Nat) (t : List Nat) :
    (buildCentrals b (l1 ++ l2) ++ t).drop (buildCentrals b l1).length =
      buildCentrals (b + (buildLocals l1).length) l2 ++ t := by
  rw [buildCentrals_append, List.append_assoc]
  exact List.drop_left' rfl

theorem buildZip_drop_localOffset (entries : List Entry) (i : Nat) :
    (buildZip entries).drop (localOffsetAt entries i) =
      buildLocals (entries.drop i) ++
        (buildCentrals 0 entries ++
          endRecord entries.length (buildCentrals 0 entries).length
            (buildLocals entries).length) := by
  have h := drop_locals_split (entries.take i) (entries.drop i)
    (buildCentrals 0 entries ++
      endRecord entries.length (buildCentrals 0 entries).length
        (buildLocals entries).length)
  rw [List.take_append_drop] at h
  unfold buildZip localOffsetAt
  rw [List.append_assoc]
  exact h

theorem buildZip_drop_centralPos (entries : List Entry) (i : Nat) :
    (buildZip entries).drop (centralPosAt entries i) =
      buildCentrals (localOffsetAt entries i) (entries.drop i) ++
        endRecord entries.length (buildCentrals 0 entries).length
          (buildLocals entries).length := by
  unfold buildZip centralPosAt
  rw [List.append_assoc, drop_add, List.drop_left' rfl]
  have h := drop_centrals_split (entries.take i) (entries.drop i) 0
    (endRecord entries.length (buildCentrals 0 entries).length
      (buildLocals entries).length)
  rw [List.take_append_drop] at h
  rw [h]
  unfold localOffsetAt
  rw [Nat.zero_add]

theorem localOffsetAt_le (entries : List Entry) (i : Nat) :
    localOffsetAt entries i ≤ (buildLocals entries).length := by
  unfold localOffsetAt
  conv_rhs => rw [← List.take_append_drop i entries]
  rw [buildLocals_append, List.length_append]
  omega

/-! ### Claim theorems for the archive assembler -/

/-- C4: `crc32` applied to the ASCII bytes of `"123456789"` returns the
published CRC-32 reference value `0xCBF43926` under the specified algorithm. -/
theorem crc32_check_value : crc32 [49, 50, 51, 52, 53, 54, 55, 56, 57] = 0xCBF43926 := by
  decide

/-- C5: `crc32` applied to the empty byte buffer returns exactly 0. -/
theorem crc32_empty : crc32 [] = 0x00000000 := by
  decide

/-- C1: round-trip — building an archive from any entry list whose names fit
the 16-bit name-length field (unique or not), whose count fits the 16-bit
count field, and whose total size fits the 32-bit offset fields, then
extracting it with the standard-compliant reader, yields back every entry's
byte-identical data under its original name, in the original order. -/
theorem buildZip_roundTrip (entries : List Entry)
    (hnames : ∀ e ∈ entries, e.name.length < 65536)
    (hcount : entries.length < 65536)
    (hlen : (buildZip entries).length < 4294967296) :
    readArchive (buildZip entries) = some entries :=
  readArchive_buildZip entries hnames hcount hlen

/-- Witness for C1 at a concrete two-entry archive. -/
theorem buildZip_roundTrip_witness :
    (∀ e ∈ [Entry.mk [65, 66] [1, 2, 3], Entry.mk [67] [9]], e.name.length < 65536) ∧
    ([Entry.mk [65, 66] [1, 2, 3], Entry.mk [67] [9]].length < 65536) ∧
    ((buildZip [Entry.mk [65, 66] [1, 2, 3], Entry.mk [67] [9]]).length < 4294967296) ∧
    readArchive (buildZip [Entry.mk [65, 66] [1, 2, 3], Entry.mk [67] [9]]) =
      some [Entry.mk [65, 66] [1, 2, 3], Entry.mk [67] [9]] :=
  ⟨by decide, by decide, by decide,
    buildZip_roundTrip _ (by decide) (by decide) (by decide)⟩

/-- C2: offset invariant — the local-header offset stored in entry `i`'s
central-directory record equals the actual byte position of that entry's
local header within the final output, and the entry's local header (starting
with its signature bytes) does begin at that byte position. -/
theorem centralRecord_offset_invariant (entries : List Entry) (i : Nat)
    (hi : i < entries.length)
    (hlen : (buildZip entries).length < 4294967296) :
    readLe32 (buildZip entries) (centralPosAt entries i + 42) =
      localOffsetAt entries i ∧
    ∃ rest, (buildZip entries).drop (localOffsetAt entries i) =
      localHeader (entries.get ⟨i, hi⟩) ++ rest := by
  have hoff32 : localOffsetAt entries i < 4294967296 := by
    have h1 := localOffsetAt_le entries i
    have h2 := buildZip_length entries
    omega
  have hdropC := buildZip_drop_centralPos entries i
  rw [List.drop_eq_getElem_cons hi] at hdropC
  have hdropC' : (buildZip entries).drop (centralPosAt entries i) =
      centralRecord (entries.get ⟨i, hi⟩) (localOffsetAt entries i) ++
        (buildCentrals (localOffsetAt entries i + entrySize entries[i]) (entries.drop (i + 1)) ++
          endRecord entries.length (buildCentrals 0 entries).length
            (buildLocals entries).length) := by
    rw [hdropC]
    simp [buildCentrals, List.append_assoc, List.get_eq_getElem]
  have hfield := central_offset hdropC'
  rw [Nat.mod_eq_of_lt hoff32] at hfield
  refine ⟨hfield, ?_⟩
  have hdropL := buildZip_drop_localOffset entries i
  rw [List.drop_eq_getElem_cons hi] at hdropL
  refine ⟨(entries[i].data ++ (buildLocals (entries.drop (i + 1)) ++
    (buildCentrals 0 entries ++ endRecord entries.length
      (buildCentrals 0 entries).length (buildLocals entries).length))), ?_⟩
  rw [hdropL]
  simp [buildLocals, List.append_assoc, List.get_eq_getElem]

/-- Witness for C2 at a concrete two-entry archive, second entry. -/
theorem centralRecord_offset_invariant_witness :
    (1 < [Entry.mk [65] [7], Entry.mk [66] [8, 9]].length) ∧
    ((buildZip [Entry.mk [65] [7], Entry.mk [66] [8, 9]]).length < 4294967296) ∧
    (readLe32 (buildZip [Entry.mk [65] [7], Entry.mk [66] [8, 9]])
        (centralPosAt [Entry.mk [65] [7], Entry.mk [66] [8, 9]] 1 + 42) =
      localOffsetAt [Entry.mk [65] [7], Entry.mk [66] [8, 9]] 1 ∧
    ∃ rest, (buildZip [Entry.mk [65] [7], Entry.mk [66] [8, 9]]).drop
        (localOffsetAt [Entry.mk [65] [7], Entry.mk [66] [8, 9]] 1) =
      localHeader ([Entry.mk [65] [7], Entry.mk [66] [8, 9]].get ⟨1, by decide⟩) ++ rest) :=
  ⟨by decide, by decide,
    centralRecord_offset_invariant [Entry.mk [65] [7], Entry.mk [66] [8, 9]] 1
      (by decide) (by decide)⟩

/-- C3: end-of-central-directory invariant — in every built archive whose
entry count fits the 16-bit field and whose size fits the 32-bit fields, the
end record's entry count field holds the number of entries, its
central-directory size field holds the byte length of the concatenated
central records, and its central-directory offset field holds the byte length
of the local-phase output (the position where the central directory begins). -/
theorem endRecord_invariant (entries : List Entry)
    (hcount : entries.length < 65536)
    (hlen : (buildZip entries).length < 4294967296) :
    readLe16 (buildZip entries)
        ((buildLocals entries).length + (buildCentrals 0 entries).length + 10) =
      entries.length ∧
    readLe32 (buildZip entries)
        ((buildLocals entries).length + (buildCentrals 0 entries).length + 12) =
      (buildCentrals 0 entries).length ∧
    readLe32 (buildZip entries)
        ((buildLocals entries).length + (buildCentrals 0 entries).length + 16) =
      (buildLocals entries).length := by
  have hsplit : buildZip entries =
      (buildLocals entries ++ buildCentrals 0 entries) ++
        endRecord entries.length (buildCentrals 0 entries).length
          (buildLocals entries).length := by
    simp [buildZip, List.append_assoc]
  have hdropE : (buildZip entries).drop
      ((buildLocals entries).length + (buildCentrals 0 entries).length) =
      endRecord entries.length (buildCentrals 0 entries).length
        (buildLocals entries).length ++ [] := by
    rw [hsplit, List.append_nil]
    exact List.drop_left' (by simp)
  have h22 := buildZip_length entries
  have hcnt := end_count hdropE
  have hsize := end_cdSize hdropE
  have hoff := end_cdOffset hdropE
  rw [Nat.mod_eq_of_lt hcount] at hcnt
  rw [Nat.mod_eq_of_lt (by omega : (buildCentrals 0 entries).length < 4294967296)] at hsize
  rw [Nat.mod_eq_of_lt (by omega : (buildLocals entries).length < 4294967296)] at hoff
  exact ⟨hcnt, hsize, hoff⟩

/-- Witness for C3 at a concrete two-entry archive. -/
theorem endRecord_invariant_witness :
    ([Entry.mk [65] [7], Entry.mk [66] [8, 9]].length < 65536) ∧
    ((buildZip [Entry.mk [65] [7], Entry.mk [66] [8, 9]]).length < 4294967296) ∧
    (readLe16 (buildZip [Entry.mk [65] [7], Entry.mk [66] [8, 9]])
        ((buildLocals [Entry.mk [65] [7], Entry.mk [66] [8, 9]]).length +
          (buildCentrals 0 [Entry.mk [65] [7], Entry.mk [66] [8, 9]]).length + 10) =
      [Entry.mk [65] [7], Entry.mk [66] [8, 9]].length ∧
    readLe32 (buildZip [Entry.mk [65] [7], Entry.mk [66] [8, 9]])
        ((buildLocals [Entry.mk [65] [7], Entry.mk [66] [8, 9]]).length +
          (buildCentrals 0 [Entry.mk [65] [7], Entry.mk [66] [8, 9]]).length + 12) =
      (buildCentrals 0 [Entry.mk [65] [7], Entry.mk [66] [8, 9]]).length ∧
    readLe32 (buildZip [Entry.mk [65] [7], Entry.mk [66] [8, 9]])
        ((buildLocals [Entry.mk [65] [7], Entry.mk [66] [8, 9]]).length +
          (buildCentrals 0 [Entry.mk [65] [7], Entry.mk [66] [8, 9]]).length + 16) =
      (buildLocals [Entry.mk [65] [7], Entry.mk [66] [8, 9]]).length) :=
  ⟨by decide, by decide,
    endRecord_invariant [Entry.mk [65] [7], Entry.mk [66] [8, 9]] (by decide) (by decide)⟩

/-- C6: for the fixture of two entries named `piece_0_0.png` (the byte list
below is the ASCII encoding of that 13-character name) with 100 bytes of data
and `piece_0_1.png` with 50 bytes of data, the assembled archive's total byte
length is `30+13+100 + 30+13+50 + 46+13 + 46+13 + 22 = 376`. -/
theorem fixture_archive_length (d0 d1 : List Nat)
    (h0 : d0.length = 100) (h1 : d1.length = 50) :
    (buildZip [Entry.mk [112, 105, 101, 99, 101, 95, 48, 95, 48, 46, 112, 110, 103] d0,
               Entry.mk [112, 105, 101, 99, 101, 95, 48, 95, 49, 46, 112, 110, 103] d1]).length =
      30 + 13 + 100 + (30 + 13 + 50) + (46 + 13) + (46 + 13) + 22 := by
  rw [buildZip_length]
  simp [buildLocals, buildCentrals, localHeader_length, centralRecord_length, h0, h1]

/-- Witness for C6 with concrete 100-byte and 50-byte buffers. -/
theorem fixture_archive_length_witness :
    (List.replicate 100 7).length = 100 ∧ (List.replicate 50 9).length = 50 ∧
    (buildZip [Entry.mk [112, 105, 101, 99, 101, 95, 48, 95, 48, 46, 112, 110, 103]
                 (List.replicate 100 7),
               Entry.mk [112, 105, 101, 99, 101, 95, 48, 95, 49, 46, 112, 110, 103]
                 (List.replicate 50 9)]).length =
      30 + 13 + 100 + (30 + 13 + 50) + (46 + 13) + (46 + 13) + 22 :=
  ⟨by simp, by simp,
    fixture_archive_length (List.replicate 100 7) (List.replicate 50 9) (by simp) (by simp)⟩

/-- C7: determinism — the archive build is a pure function of the entry list:
building twice from equal inputs produces byte-identical output buffers; no
clock, timestamp or random value enters the computation. -/
theorem buildZip_deterministic (es1 es2 : List Entry) (h : es1 = es2) :
    buildZip es1 = buildZip es2 :=
  congrArg buildZip h

/-- Witness for C7 at a concrete input. -/
theorem buildZip_deterministic_witness :
    buildZip [Entry.mk [65] [1, 2]] = buildZip [Entry.mk [65] [1, 2]] :=
  buildZip_deterministic [Entry.mk [65] [1, 2]] [Entry.mk [65] [1, 2]] rfl

/-- C8: empty-name edge case — an entry whose name has byte length 0 passes
the builder's precondition check (no error is raised) and still yields a
structurally valid archive that a standard-compliant reader extracts; the
checked builder rejects a single-entry list exactly when the name exceeds the
16-bit limit of 65535 bytes. -/
theorem emptyName_archive_ok (data : List Nat)
    (hd : data.length + 98 < 4294967296) :
    buildZipChecked [Entry.mk [] data] = some (buildZip [Entry.mk [] data]) ∧
    readArchive (buildZip [Entry.mk [] data]) = some [Entry.mk [] data] ∧
    ∀ name : List Nat,
      buildZipChecked [Entry.mk name data] = none ↔ 65535 < name.length := by
  have hzlen : (buildZip [Entry.mk [] data]).length = 98 + data.length := by
    rw [buildZip_length]
    simp [buildLocals, buildCentrals, localHeader_length, centralRecord_length]
    omega
  refine ⟨?_, ?_, ?_⟩
  · simp [buildZipChecked]
  · refine readArchive_buildZip _ ?_ (by simp) (by omega)
    intro e he
    simp at he
    simp [he]
  · intro name
    unfold buildZipChecked
    by_cases h : name.length ≤ 65535
    · simp [h]
    · simp [h]
      omega

/-- Witness for C8 at a concrete three-byte buffer. -/
theorem emptyName_archive_ok_witness :
    (([1, 2, 3] : List Nat).length + 98 < 4294967296) ∧
    buildZipChecked [Entry.mk [] [1, 2, 3]] = some (buildZip [Entry.mk [] [1, 2, 3]]) ∧
    readArchive (buildZip [Entry.mk [] [1, 2, 3]]) = some [Entry.mk [] [1, 2, 3]] ∧
    (buildZipChecked [Entry.mk (List.replicate 65536 0) [1, 2, 3]] = none ↔
      65535 < (List.replicate 65536 0).length) :=
  ⟨by decide, (emptyName_archive_ok [1, 2, 3] (by decide)).1,
    (emptyName_archive_ok [1, 2, 3] (by decide)).2.1,
    (emptyName_archive_ok [1, 2, 3] (by decide)).2.2 (List.replicate 65536 0)⟩

end Zip

namespace Grid

/-! ### Reduction of the double scan loop to a fold over opaque pixels -/

theorem foldl_flatMap {α β γ : Type} (f : β → α → β) (g : γ → List α)
    (l : List γ) (init : β) :
    (l.flatMap g).foldl f init = l.foldl (fun acc c => (g c).foldl f acc) init := by
  induction l generalizing init with
  | nil => rfl
  | cons c cs ih => simp [ih]

theorem scanImage_eq_foldl (img : Image) (thr : Nat) :
    scanImage img thr =
      (scanPoints img).foldl (fun acc p => scanPixel img thr acc p.1 p.2)
        ⟨img.width, img.height, -1, -1⟩ := by
  unfold scanImage scanPoints
  rw [foldl_flatMap]
  simp [List.foldl_map]

theorem scanPixel_eq (img : Image) (thr : Nat) (acc : ScanAcc) (x y : Nat) :
    scanPixel img thr acc x y =
      if opaquePt img thr x y then rawStep acc (x, y) else acc := rfl

theorem foldl_scan_filter (img : Image) (thr : Nat) (ps : List (Nat × Nat)) :
    ∀ init : ScanAcc,
    ps.foldl (fun acc p => scanPixel img thr acc p.1 p.2) init =
      (ps.filter (fun p => decide (opaquePt img thr p.1 p.2))).foldl rawStep init := by
  induction ps with
  | nil => intro _; rfl
  | cons p ps ih =>
    intro init
    rw [List.foldl_cons, List.filter_cons]
    by_cases h : opaquePt img thr p.1 p.2
    · rw [if_pos (by simpa using h)]
      rw [List.foldl_cons]
      have hp : scanPixel img thr init p.1 p.2 = rawStep init p := by
        rw [scanPixel_eq, if_pos h]
      rw [hp]
      exact ih (rawStep init p)
    · rw [if_neg (by simpa using h)]
      have hp : scanPixel img thr init p.1 p.2 = init := by
        rw [scanPixel_eq, if_neg h]
      rw [hp]
      exact ih init

theorem scanImage_eq_rawFold (img : Image) (thr : Nat) :
    scanImage img thr =
      (opaqueList img thr).foldl rawStep ⟨img.width, img.height, -1, -1⟩ := by
  rw [scanImage_eq_foldl, foldl_scan_filter]
  rfl

theorem mem_scanPoints (img : Image) (p : Nat × Nat) :
    p ∈ scanPoints img ↔ p.1 < img.width ∧ p.2 < img.height := by
  unfold scanPoints
  simp only [List.mem_flatMap, List.mem_map, List.mem_range]
  constructor
  · rintro ⟨y, hy, x, hx, rfl⟩
    exact ⟨hx, hy⟩
  · rintro ⟨h1, h2⟩
    exact ⟨p.2, h2, p.1, h1, rfl⟩

theorem mem_opaqueList (img : Image) (thr : Nat) (p : Nat × Nat) :
    p ∈ opaqueList img thr ↔
      p.1 < img.width ∧ p.2 < img.height ∧ opaquePt img thr p.1 p.2 := by
  unfold opaqueList
  rw [List.mem_filter, mem_scanPoints]
  simp [and_assoc]

/-! ### What each component of the fold computes -/

theorem rawFold_minX (ps : List (Nat × Nat)) : ∀ init : ScanAcc,
    (ps.foldl rawStep init).minX ≤ init.minX ∧
    (∀ p ∈ ps, (ps.foldl rawStep init).minX ≤ p.1) ∧
    ((ps.foldl rawStep init).minX = init.minX ∨
      ∃ p ∈ ps, (ps.foldl rawStep init).minX = p.1) := by
  induction ps with
  | nil => intro init; exact ⟨le_refl _, by simp, Or.inl rfl⟩
  | cons p ps ih =>
    intro init
    obtain ⟨h1, h2, h3⟩ := ih (rawStep init p)
    have hr : (rawStep init p).minX = if p.1 < init.minX then p.1 else init.minX := rfl
    rw [List.foldl_cons]
    refine ⟨?_, ?_, ?_⟩
    · refine le_trans h1 ?_
      rw [hr]; split <;> omega
    · intro q hq
      rcases List.mem_cons.mp hq with rfl | hq2
      · refine le_trans h1 ?_
        rw [hr]; split <;> omega
      · exact h2 q hq2
    · rcases h3 with he | ⟨q, hq, he⟩
      · rw [he, hr]
        split
        · exact Or.inr ⟨p, List.mem_cons_self p ps, rfl⟩
        · exact Or.inl rfl
      · exact Or.inr ⟨q, List.mem_cons_of_mem p hq, he⟩

theorem rawFold_minY (ps : List (Nat × Nat)) : ∀ init : ScanAcc,
    (ps.foldl rawStep init).minY ≤ init.minY ∧
    (∀ p ∈ ps, (ps.foldl rawStep init).minY ≤ p.2) ∧
    ((ps.foldl rawStep init).minY = init.minY ∨
      ∃ p ∈ ps, (ps.foldl rawStep init).minY = p.2) := by
  induction ps with
  | nil => intro init; exact ⟨le_refl _, by simp, Or.inl rfl⟩
  | cons p ps ih =>
    intro init
    obtain ⟨h1, h2, h3⟩ := ih (rawStep init p)
    have hr : (rawStep init p).minY = if p.2 < init.minY then p.2 else init.minY := rfl
    rw [List.foldl_cons]
    refine ⟨?_, ?_, ?_⟩
    · refine le_trans h1 ?_
      rw [hr]; split <;> omega
    · intro q hq
      rcases List.mem_cons.mp hq with rfl | hq2
      · refine le_trans h1 ?_
        rw [hr]; split <;> omega
      · exact h2 q hq2
    · rcases h3 with he | ⟨q, hq, he⟩
      · rw [he, hr]
        split
        · exact Or.inr ⟨p, List.mem_cons_self p ps, rfl⟩
        · exact Or.inl rfl
      · exact Or.inr ⟨q, List.mem_cons_of_mem p hq, he⟩

theorem rawFold_maxX (ps : List (Nat × Nat)) : ∀ init : ScanAcc,
    init.maxX ≤ (ps.foldl rawStep init).maxX ∧
    (∀ p ∈ ps, (p.1 : Int) ≤ (ps.foldl rawStep init).maxX) ∧
    ((ps.foldl rawStep init).maxX = init.maxX ∨
      ∃ p ∈ ps, (ps.foldl rawStep init).maxX = (p.1 : Int)) := by
  induction ps with
  | nil => intro init; exact ⟨le_refl _, by simp, Or.inl rfl⟩
  | cons p ps ih =>
    intro init
    obtain ⟨h1, h2, h3⟩ := ih (rawStep init p)
    have hr : (rawStep init p).maxX =
        if (p.1 : Int) > init.maxX then (p.1 : Int) else init.maxX := rfl
    rw [List.foldl_cons]
    refine ⟨?_, ?_, ?_⟩
    · refine le_trans ?_ h1
      rw [hr]; split <;> omega
    · intro q hq
      rcases List.mem_cons.mp hq with rfl | hq2
      · refine le_trans ?_ h1
        rw [hr]; split <;> omega
      · exact h2 q hq2
    · rcases h3 with he | ⟨q, hq, he⟩
      · rw [he, hr]
        split
        · exact Or.inr ⟨p, List.mem_cons_self p ps, rfl⟩
        · exact Or.inl rfl
      · exact Or.inr ⟨q, List.mem_cons_of_mem p hq, he⟩

theorem rawFold_maxY (ps : List (Nat × Nat)) : ∀ init : ScanAcc,
    init.maxY ≤ (ps.foldl rawStep init).maxY ∧
    (∀ p ∈ ps, (p.2 : Int) ≤ (ps.foldl rawStep init).maxY) ∧
    ((ps.foldl rawStep init).maxY = init.maxY ∨
      ∃ p ∈ ps, (ps.foldl rawStep init).maxY = (p.2 : Int)) := by
  induction ps with
  | nil => intro init; exact ⟨le_refl _, by simp, Or.inl rfl⟩
  | cons p ps ih =>
    intro init
    obtain ⟨h1, h2, h3⟩ := ih (rawStep init p)
    have hr : (rawStep init p).maxY =
        if (p.2 : Int) > init.maxY then (p.2 : Int) else init.maxY := rfl
    rw [List.foldl_cons]
    refine ⟨?_, ?_, ?_⟩
    · refine le_trans ?_ h1
      rw [hr]; split <;> omega
    · intro q hq
      rcases List.mem_cons.mp hq with rfl | hq2
      · refine le_trans ?_ h1
        rw [hr]; split <;> omega
      · exact h2 q hq2
    · rcases h3 with he | ⟨q, hq, he⟩
      · rw [he, hr]
        split
        · exact Or.inr ⟨p, List.mem_cons_self p ps, rfl⟩
        · exact Or.inl rfl
      · exact Or.inr ⟨q, List.mem_cons_of_mem p hq, he⟩

/-! ### Tight bounds of the scan when an opaque pixel exists -/

theorem scan_bounds (img : Image) (thr : Nat)
    (hne : ∃ x y, x < img.width ∧ y < img.height ∧ opaquePt img thr x y) :
    IsLeast (opaqueCols img thr) (scanImage img thr).minX ∧
    IsGreatest (opaqueCols img thr) (scanImage img thr).maxX.toNat ∧
    IsLeast (opaqueRows img thr) (scanImage img thr).minY ∧
    IsGreatest (opaqueRows img thr) (scanImage img thr).maxY.toNat ∧
    (scanImage img thr).maxX = ((scanImage img thr).maxX.toNat : Int) ∧
    (scanImage img thr).maxY = ((scanImage img thr).maxY.toNat : Int) := by
  obtain ⟨x0, y0, hx0, hy0, hop⟩ := hne
  have hmem0 : (x0, y0) ∈ opaqueList img thr :=
    (mem_opaqueList img thr (x0, y0)).mpr ⟨hx0, hy0, hop⟩
  rw [scanImage_eq_rawFold]
  obtain ⟨a1, a2, a3⟩ := rawFold_minX (opaqueList img thr) ⟨img.width, img.height, -1, -1⟩
  obtain ⟨b1, b2, b3⟩ := rawFold_maxX (opaqueList img thr) ⟨img.width, img.height, -1, -1⟩
  obtain ⟨c1, c2, c3⟩ := rawFold_minY (opaqueList img thr) ⟨img.width, img.height, -1, -1⟩
  obtain ⟨d1, d2, d3⟩ := rawFold_maxY (opaqueList img thr) ⟨img.width, img.height, -1, -1⟩
  have hmaxX0 : (0 : Int) ≤
      ((opaqueList img thr).foldl rawStep ⟨img.width, img.height, -1, -1⟩).maxX := by
    have := b2 (x0, y0) hmem0
    omega
  have hmaxY0 : (0 : Int) ≤
      ((opaqueList img thr).foldl rawStep ⟨img.width, img.height, -1, -1⟩).maxY := by
    have := d2 (x0, y0) hmem0
    omega
  refine ⟨⟨?_, ?_⟩, ⟨?_, ?_⟩, ⟨?_, ?_⟩, ⟨?_, ?_⟩,
    (Int.toNat_of_nonneg hmaxX0).symm, (Int.toNat_of_nonneg hmaxY0).symm⟩
  · rcases a3 with he | ⟨q, hq, he⟩
    · have := a2 (x0, y0) hmem0
      rw [he] at this ⊢
      exact absurd hx0 (by simp at this ⊢; omega)
    · rw [he]
      obtain ⟨hq1, hq2, hq3⟩ := (mem_opaqueList img thr q).mp hq
      exact ⟨hq1, q.2, hq2, hq3⟩
  · intro x hx
    obtain ⟨hxw, y, hyh, hxy⟩ := hx
    exact a2 (x, y) ((mem_opaqueList img thr (x, y)).mpr ⟨hxw, hyh, hxy⟩)
  · rcases b3 with he | ⟨q, hq, he⟩
    · rw [he] at hmaxX0
      exact absurd hmaxX0 (by simp)
    · rw [he]
      obtain ⟨hq1, hq2, hq3⟩ := (mem_opaqueList img thr q).mp hq
      simpa using ⟨hq1, q.2, hq2, hq3⟩
  · intro x hx
    obtain ⟨hxw, y, hyh, hxy⟩ := hx
    have := b2 (x, y) ((mem_opaqueList img thr (x, y)).mpr ⟨hxw, hyh, hxy⟩)
    omega
  · rcases c3 with he | ⟨q, hq, he⟩
    · have := c2 (x0, y0) hmem0
      rw [he] at this ⊢
      exact absurd hy0 (by simp at this ⊢; omega)
    · rw [he]
      obtain ⟨hq1, hq2, hq3⟩ := (mem_opaqueList img thr q).mp hq
      exact ⟨hq2, q.1, hq1, hq3⟩
  · intro y hy
    obtain ⟨hyh, x, hxw, hxy⟩ := hy
    exact c2 (x, y) ((mem_opaqueList img thr (x, y)).mpr ⟨hxw, hyh, hxy⟩)
  · rcases d3 with he | ⟨q, hq, he⟩
    · rw [he] at hmaxY0
      exact absurd hmaxY0 (by simp)
    · rw [he]
      obtain ⟨hq1, hq2, hq3⟩ := (mem_opaqueList img thr q).mp hq
      simpa using ⟨hq2, q.1, hq1, hq3⟩
  · intro y hy
    obtain ⟨hyh, x, hxw, hxy⟩ := hy
    have := d2 (x, y) ((mem_opaqueList img thr (x, y)).mpr ⟨hxw, hyh, hxy⟩)
    omega

/-- When no pixel passes the threshold the scanner returns the initial
bounds and the function falls back to the full-image rectangle. -/
theorem getOpaqueBoundingBox_fallback (img : Image) (thr : Nat)
    (hnone : ∀ x y, x < img.width → y < img.height → ¬ opaquePt img thr x y) :
    getOpaqueBoundingBox img thr = ⟨0, 0, (img.width : Int), (img.height : Int)⟩ := by
  have hempty : opaqueList img thr = [] := by
    rw [List.eq_nil_iff_forall_not_mem]
    intro p hp
    rw [mem_opaqueList] at hp
    exact hnone p.1 p.2 hp.1 hp.2.1 hp.2.2
  have hscan : scanImage img thr = ⟨img.width, img.height, -1, -1⟩ := by
    rw [scanImage_eq_rawFold, hempty]
    rfl
  simp [getOpaqueBoundingBox, hscan]

/-- When some pixel passes the threshold the function returns the tight
bounding box of the opaque pixels. -/
theorem getOpaqueBoundingBox_tight (img : Image) (thr : Nat)
    (hne : ∃ x y, x < img.width ∧ y < img.height ∧ opaquePt img thr x y) :
    ∃ mnx mxx mny mxy : Nat,
      IsLeast (opaqueCols img thr) mnx ∧
      IsGreatest (opaqueCols img thr) mxx ∧
      IsLeast (opaqueRows img thr) mny ∧
      IsGreatest (opaqueRows img thr) mxy ∧
      getOpaqueBoundingBox img thr =
        ⟨(mnx : Int), (mny : Int),
          (mxx : Int) - (mnx : Int) + 1, (mxy : Int) - (mny : Int) + 1⟩ := by
  obtain ⟨hminX, hmaxX, hminY, hmaxY, hx, hy⟩ := scan_bounds img thr hne
  refine ⟨(scanImage img thr).minX, (scanImage img thr).maxX.toNat,
    (scanImage img thr).minY, (scanImage img thr).maxY.toNat,
    hminX, hmaxX, hminY, hmaxY, ?_⟩
  have hcond : ¬((scanImage img thr).maxX = -1 ∨ (scanImage img thr).maxY = -1) := by
    push_neg
    constructor
    · rw [hx]; omega
    · rw [hy]; omega
  simp only [getOpaqueBoundingBox, hcond, if_false]
  rw [← hx, ← hy]

end Grid

namespace Grid

/-- C9: `getOpaqueBoundingBox` returns the tight bounding box of the pixels
whose alpha channel strictly exceeds the threshold — `x` and `y` are the
least such column and row, `width = maxX - minX + 1` and
`height = maxY - minY + 1` for the greatest such column and row; when no
pixel exceeds the threshold it falls back to the full-image rectangle
`(0, 0, width, height)`; and for any image with positive dimensions the
returned box has positive width and height. -/
theorem getOpaqueBoundingBox_spec (img : Image) (thr : Nat) :
    ((∀ x y, x < img.width → y < img.height → ¬ opaquePt img thr x y) →
      getOpaqueBoundingBox img thr =
        ⟨0, 0, (img.width : Int), (img.height : Int)⟩) ∧
    ((∃ x y, x < img.width ∧ y < img.height ∧ opaquePt img thr x y) →
      ∃ mnx mxx mny mxy : Nat,
        IsLeast (opaqueCols img thr) mnx ∧
        IsGreatest (opaqueCols img thr) mxx ∧
        IsLeast (opaqueRows img thr) mny ∧
        IsGreatest (opaqueRows img thr) mxy ∧
        getOpaqueBoundingBox img thr =
          ⟨(mnx : Int), (mny : Int), (mxx : Int) - (mnx : Int) + 1,
            (mxy : Int) - (mny : Int) + 1⟩) ∧
    (0 < img.width → 0 < img.height →
      0 < (getOpaqueBoundingBox img thr).width ∧
      0 < (getOpaqueBoundingBox img thr).height) := by
  refine ⟨getOpaqueBoundingBox_fallback img thr, getOpaqueBoundingBox_tight img thr, ?_⟩
  intro hw hh
  by_cases hne : ∃ x y, x < img.width ∧ y < img.height ∧ opaquePt img thr x y
  · obtain ⟨mnx, mxx, mny, mxy, h1, h2, h3, h4, heq⟩ :=
      getOpaqueBoundingBox_tight img thr hne
    have hxle : mnx ≤ mxx := h1.2 h2.1
    have hyle : mny ≤ mxy := h3.2 h4.1
    rw [heq]
    constructor
    · show (0 : Int) < (mxx : Int) - (mnx : Int) + 1
      omega
    · show (0 : Int) < (mxy : Int) - (mny : Int) + 1
      omega
  · push_neg at hne
    rw [getOpaqueBoundingBox_fallback img thr hne]
    constructor
    · show (0 : Int) < (img.width : Int)
      omega
    · show (0 : Int) < (img.height : Int)
      omega

/-- Witness for C9 on a concrete 1 x 2 image whose lower pixel is opaque. -/
theorem getOpaqueBoundingBox_spec_witness :
    (∃ x y, x < (Image.mk 1 2 [0, 0, 0, 0, 0, 0, 0, 255]).width ∧
      y < (Image.mk 1 2 [0, 0, 0, 0, 0, 0, 0, 255]).height ∧
      opaquePt (Image.mk 1 2 [0, 0, 0, 0, 0, 0, 0, 255]) 8 x y) ∧
    (∃ mnx mxx mny mxy : Nat,
      IsLeast (opaqueCols (Image.mk 1 2 [0, 0, 0, 0, 0, 0, 0, 255]) 8) mnx ∧
      IsGreatest (opaqueCols (Image.mk 1 2 [0, 0, 0, 0, 0, 0, 0, 255]) 8) mxx ∧
      IsLeast (opaqueRows (Image.mk 1 2 [0, 0, 0, 0, 0, 0, 0, 255]) 8) mny ∧
      IsGreatest (opaqueRows (Image.mk 1 2 [0, 0, 0, 0, 0, 0, 0, 255]) 8) mxy ∧
      getOpaqueBoundingBox (Image.mk 1 2 [0, 0, 0, 0, 0, 0, 0, 255]) 8 =
        ⟨(mnx : Int), (mny : Int), (mxx : Int) - (mnx : Int) + 1,
          (mxy : Int) - (mny : Int) + 1⟩) ∧
    (0 < (getOpaqueBoundingBox (Image.mk 1 2 [0, 0, 0, 0, 0, 0, 0, 255]) 8).width ∧
      0 < (getOpaqueBoundingBox (Image.mk 1 2 [0, 0, 0, 0, 0, 0, 0, 255]) 8).height) :=
  ⟨⟨0, 1, by decide⟩,
    (getOpaqueBoundingBox_spec (Image.mk 1 2 [0, 0, 0, 0, 0, 0, 0, 255]) 8).2.1
      ⟨0, 1, by decide⟩,
    (getOpaqueBoundingBox_spec (Image.mk 1 2 [0, 0, 0, 0, 0, 0, 0, 255]) 8).2.2
      (by decide) (by decide)⟩

end Grid

namespace Compose

/-- C10: after `updateScale r` in a loaded state, `scaleRatio` equals `r`
clamped into the slider range `[lo, hi]`, and `imagePos` is recomputed so
that the canvas-space centre of the bounding box — `imagePos +
(bbox.x + bbox.width/2, bbox.y + bbox.height/2) * (baseScale * scaleRatio)`
— is exactly the same point before and after the call, over exact rational
arithmetic. -/
theorem updateScale_spec (s : ComposeState) (r lo hi : ℚ) :
    (updateScale s r lo hi).scaleRatio = clamp r lo hi ∧
    getBoundingCenter (updateScale s r lo hi) (getScale (updateScale s r lo hi)) =
      getBoundingCenter s (getScale s) := by
  refine ⟨rfl, ?_⟩
  unfold updateScale getBoundingCenter getScale
  simp only [Prod.mk.injEq]
  constructor <;> ring

end Compose
